import Mathlib

/-!
Verification of the `releaser` monorepo release orchestrator.

The Rust sources are shallowly embedded: strings are Lean `String`s, and the
Rust splitting / scanning primitives are modelled as executable functions on
`List Char`.  Functions that can panic in Rust (`unwrap`, out-of-bounds
indexing) return `Option`, with `none` standing for a panic.  Machine `u32`
values are modelled as `Nat` with the parse rejecting values `≥ 2^32`, just as
Rust's `u32::from_str` does; the `+ 1` arithmetic on already-parsed components
is kept as plain `Nat` addition (no claim exercises wrap-around).
-/

namespace Releaser

/-! ## Character-level string primitives (Rust `str` operations) -/

/-- Model of Rust `str::split(c)` for a one-character pattern, as a pair of
the fragment before the first separator and the remaining fragments. -/
def splitOnCharAux (c : Char) : List Char → List Char × List (List Char)
  | [] => ([], [])
  | x :: xs =>
    let r := splitOnCharAux c xs
    if x = c then ([], r.1 :: r.2) else (x :: r.1, r.2)

/-- Rust `str::split(c)`: the list of fragments (always non-empty). -/
def splitOnChar (c : Char) (l : List Char) : List (List Char) :=
  (splitOnCharAux c l).1 :: (splitOnCharAux c l).2

/-- Occurrence test: does `pat` occur as a contiguous substring of the second
argument?  Models Rust `str::contains` for string patterns. -/
def containsSub (pat : List Char) : List Char → Bool
  | [] => pat.isPrefixOf []
  | c :: cs => pat.isPrefixOf (c :: cs) || containsSub pat cs

/-- Rust `str::contains` on `String`s. -/
def strContains (s pat : String) : Bool := containsSub pat.data s.data

/-- Fuel-bounded kernel of `stripPrefixAll`.  Each iteration strips at least
one character, so any `fuel ≥ s.length` yields the untruncated scan; the fuel
only serves to keep the recursion structural. -/
def stripPrefixAllAux (pat : List Char) : Nat → List Char → List Char
  | 0, s => s
  | fuel + 1, s =>
    if pat ≠ [] ∧ pat.isPrefixOf s then stripPrefixAllAux pat fuel (s.drop pat.length)
    else s

/-- Model of Rust `str::trim_start_matches(pat)`: repeatedly strip the prefix
`pat` while it matches. -/
def stripPrefixAll (pat : List Char) (s : List Char) : List Char :=
  stripPrefixAllAux pat s.length s

/-- Fuel-bounded kernel of `replaceList`; any `fuel ≥ s.length` yields the
untruncated scan. -/
def replaceListAux (pat rep : List Char) : Nat → List Char → List Char
  | 0, s => s
  | fuel + 1, s =>
    if pat ≠ [] ∧ pat.isPrefixOf s then rep ++ replaceListAux pat rep fuel (s.drop pat.length)
    else
      match s with
      | [] => []
      | c :: cs => c :: replaceListAux pat rep fuel cs

/-- Model of Rust `str::replace(pat, rep)` (for a non-empty `pat`): replace
every non-overlapping occurrence of `pat`, scanning left to right without
rescanning the produced text.  For `pat = []` we return `s` unchanged; the
program only ever calls this with non-empty patterns. -/
def replaceList (pat rep s : List Char) : List Char :=
  replaceListAux pat rep s.length s

/-- Rust `str::replace` wrapped on `String`s. -/
def strReplace (s pat rep : String) : String :=
  String.mk (replaceList pat.data rep.data s.data)

/-- Fuel-bounded kernel of `countOccs`. -/
def countOccsAux (pat : List Char) : Nat → List Char → Nat
  | 0, _ => 0
  | fuel + 1, s =>
    if pat ≠ [] ∧ pat.isPrefixOf s then 1 + countOccsAux pat fuel (s.drop pat.length)
    else
      match s with
      | [] => 0
      | _ :: cs => countOccsAux pat fuel cs

/-- Number of occurrences of `pat` found by the same non-overlapping
left-to-right scan that `replaceList` performs. -/
def countOccs (pat : List Char) (s : List Char) : Nat :=
  countOccsAux pat s.length s

/-- Removal of only the first occurrence of `pat` (the behaviour the spec
ascribes to the changelog merge). -/
def removeFirstOcc (pat : List Char) : List Char → List Char
  | [] => []
  | c :: cs =>
    if pat ≠ [] ∧ pat.isPrefixOf (c :: cs) then (c :: cs).drop pat.length
    else c :: removeFirstOcc pat cs

/-- Model of Rust `str::lines()`: split on `'\n'`, do not report a final empty
line, and strip one trailing `'\r'` from each line. -/
def rustLines (s : String) : List String :=
  let parts := (splitOnChar '\n' s.data).map String.mk
  let parts := if parts.getLast? = some "" then parts.dropLast else parts
  parts.map fun l => if l.endsWith "\r" then l.dropRight 1 else l

/-! ## Parsing of numeric components (Rust `u32::from_str`) -/

/-- Model of Rust `"...".parse::<u32>()`: an optional leading `'+'`, then at
least one ASCII digit, and the value must fit in 32 bits. -/
def rustParseU32 (l : List Char) : Option Nat :=
  let ds := if l.headD ' ' = '+' then l.tail else l
  if ds ≠ [] ∧ ds.all Char.isDigit then
    let v := ds.foldl (fun acc c => 10 * acc + (c.toNat - '0'.toNat)) 0
    if v < 2 ^ 32 then some v else none
  else none

/-- Rust `parse::<u32>().unwrap_or(0)`. -/
def parseOr0 (l : List Char) : Nat := (rustParseU32 l).getD 0

/-! ## Version arithmetic (`src/versionning/semver.rs`) -/

inductive Semver
  | Patch
  | Minor
  | Major
deriving DecidableEq, Repr

/-- `get_higher_semver` from `main.rs`: the join (maximum) of two bump kinds. -/
def get_higher_semver (current_semver new_semver : Semver) : Semver :=
  match current_semver with
  | .Patch =>
    match new_semver with
    | .Patch => .Patch
    | .Minor => .Minor
    | .Major => .Major
  | .Minor =>
    match new_semver with
    | .Patch => .Minor
    | .Minor => .Minor
    | .Major => .Major
  | .Major =>
    match new_semver with
    | .Patch => .Major
    | .Minor => .Major
    | .Major => .Major

/-- Rendering `format!("{}.{}.{}", major, minor, patch)`. -/
def verStr (major minor patch : Nat) : String :=
  toString major ++ "." ++ toString minor ++ "." ++ toString patch

/-- Parse the three leading dot-separated components of the release part.
The source parses index 2 (patch) first, then 1, then 0; since all three
`unwrap`s must succeed for the function to proceed, the order is immaterial
and we return `none` exactly when the source would panic. -/
def parseRelease (raw : List Char) : Option (Nat × Nat × Nat) :=
  let parts := splitOnChar '.' raw
  match parts.get? 0, parts.get? 1, parts.get? 2 with
  | some s0, some s1, some s2 =>
    match rustParseU32 s0, rustParseU32 s1, rustParseU32 s2 with
    | some major, some minor, some patch => some (major, minor, patch)
    | _, _, _ => none
  | _, _, _ => none

/-- The prerelease-counter extraction inside `increase_version`: the source
splits `captures[1]` on `'.'` and, when there is more than one fragment,
`unwrap`s the parse of fragment 1 (else the counter is 0). -/
def betaCounter (betaStr : List Char) : Option Nat :=
  let beta_raw_version := splitOnChar '.' betaStr
  if beta_raw_version.length > 1 then
    match beta_raw_version.get? 1 with
    | some frag => rustParseU32 frag
    | none => none
  else some 0

/-- `increase_version` from `src/versionning/semver.rs`.  `none` models the
panics of the `unwrap` calls on malformed input. -/
def increase_version (version : String) (semver : Semver) (environment : String) :
    Option String :=
  match splitOnChar '-' version.data with
  | [] => none
  | raw_version :: rest =>
    let is_beta := !rest.isEmpty
    match parseRelease raw_version with
    | none => none
    | some (major, minor, patch) =>
      if environment = "production" then
        if is_beta then some (verStr major minor patch)
        else
          some (match semver with
            | .Patch => verStr major minor (patch + 1)
            | .Minor => verStr major (minor + 1) 0
            | .Major => verStr (major + 1) 0 0)
      else
        if is_beta then
          match betaCounter (rest.headD []) with
          | none => none
          | some beta_version =>
            some (match semver with
              | .Patch => verStr major minor (patch + 1) ++ "-beta." ++ toString (beta_version + 1)
              | .Minor => verStr major (minor + 1) 0 ++ "-beta." ++ toString (beta_version + 1)
              | .Major => verStr (major + 1) 0 0 ++ "-beta." ++ toString (beta_version + 1))
        else
          some (match semver with
            | .Patch => verStr major minor (patch + 1) ++ "-beta"
            | .Minor => verStr major (minor + 1) 0 ++ "-beta"
            | .Major => verStr (major + 1) 0 0 ++ "-beta")

/-- The beta-counter parse inside `semver_compare`:
`trim_start_matches("beta.").parse::<u32>().unwrap_or(0)`. -/
def betaNum (l : List Char) : Nat := parseOr0 (stripPrefixAll "beta.".data l)

/-- The suffix comparison at the end of `semver_compare`. -/
def betaCompare : Option (List Char) → Option (List Char) → Ordering
  | none, none => .eq
  | none, some _ => .gt
  | some _, none => .lt
  | some a_beta, some b_beta => compare (betaNum a_beta) (betaNum b_beta)

/-- `semver_compare` from `src/versionning/semver.rs`.  The release loop
indexes components `0..3` and panics (here: `none`) as soon as an index is
out of range for whichever side it reaches first; earlier non-equal
components return before later indices are touched. -/
def semver_compare (a b : String) : Option Ordering :=
  let a_parts := splitOnChar '-' a.data
  let b_parts := splitOnChar '-' b.data
  let a_version := splitOnChar '.' (a_parts.headD [])
  let b_version := splitOnChar '.' (b_parts.headD [])
  match a_version.get? 0, b_version.get? 0 with
  | some a0, some b0 =>
    let o0 := compare (parseOr0 a0) (parseOr0 b0)
    if o0 ≠ .eq then some o0
    else
      match a_version.get? 1, b_version.get? 1 with
      | some a1, some b1 =>
        let o1 := compare (parseOr0 a1) (parseOr0 b1)
        if o1 ≠ .eq then some o1
        else
          match a_version.get? 2, b_version.get? 2 with
          | some a2, some b2 =>
            let o2 := compare (parseOr0 a2) (parseOr0 b2)
            if o2 ≠ .eq then some o2
            else some (betaCompare (a_parts.get? 1) (b_parts.get? 1))
          | _, _ => none
      | _, _ => none
  | _, _ => none

/-! ## Changelog composer (`src/changelog/manager.rs`) -/

structure Changelog where
  features : String
  fixes : String
  perf : String
  breaking : String
deriving DecidableEq, Repr

/-- `get_new_changelog`: render the fragment for one new version.  The Rust
function returns `Result<String>` but never errs, so it is modelled as a plain
`String`. -/
def get_new_changelog (name new_version : String) (changelog : Changelog) : String :=
  let s := ""
  let s := s ++ "# " ++ name
  let s := s ++ "\n"
  let s := s ++ "## Version " ++ new_version
  let s := s ++ "\n"
  let s := if changelog.features ≠ "" then s ++ "### Features\n" ++ changelog.features ++ "\n" else s
  let s := if changelog.fixes ≠ "" then s ++ "### Fixes\n" ++ changelog.fixes ++ "\n" else s
  let s := if changelog.perf ≠ "" then s ++ "### Performance\n" ++ changelog.perf ++ "\n" else s
  s

/-- `update_changelog`: merge the freshly rendered text with the existing
changelog body.  In the non-dry-run case the source computes
`current.replace(&format!("# {}\n", name), "")` — Rust's `replace` removes
every occurrence — and appends it after the new body. -/
def update_changelog (current_changelog : Option String) (name : String)
    (new_changelog_body : String) (dry_run : Bool) : String :=
  if dry_run then new_changelog_body
  else
    match current_changelog with
    | some current => new_changelog_body ++ strReplace current ("# " ++ name ++ "\n") ""
    | none => new_changelog_body

/-! ## Commit classifier (`format_commit_message` and the per-line loop in `main.rs`) -/

/-- ASCII lowercase-hex character, the class `[0-9a-f]`. -/
def isHexLower (c : Char) : Bool := c.isDigit || ('a' ≤ c && c ≤ 'f')

/-- The regex class `\w`, restricted to ASCII (the commit subjects exercised
by the program are ASCII). -/
def isWordChar (c : Char) : Bool := c.isAlphanum || c = '_'

/-- Matcher for the anchored regex `^[0-9a-f]+\s+\w+\(([^)]+)\):\s+(.+)$` of
`format_commit_message`, returning the two capture groups.  All adjacent
classes except `\s+`/`(.+)` are disjoint, so greedy scanning is exact; at the
`\s+ (.+)$` boundary the engine gives back one whitespace character when the
message would otherwise be empty. -/
def matchCommitPattern (l : List Char) : Option (List Char × List Char) :=
  let hash := l.takeWhile isHexLower
  if hash = [] then none
  else
    let r1 := l.dropWhile isHexLower
    let ws1 := r1.takeWhile Char.isWhitespace
    if ws1 = [] then none
    else
      let r2 := r1.dropWhile Char.isWhitespace
      let word := r2.takeWhile isWordChar
      if word = [] then none
      else
        match r2.dropWhile isWordChar with
        | '(' :: r4 =>
          let scope := r4.takeWhile (fun c => c ≠ ')')
          if scope = [] then none
          else
            match r4.dropWhile (fun c => c ≠ ')') with
            | ')' :: ':' :: r5 =>
              let ws2 := r5.takeWhile Char.isWhitespace
              if ws2 = [] then none
              else
                let msg := r5.dropWhile Char.isWhitespace
                if msg ≠ [] then
                  if msg.all (fun c => c ≠ '\n') then some (scope, msg) else none
                else if ws2.length ≥ 2 ∧ ws2.getLastD ' ' ≠ '\n' then
                  some (scope, [ws2.getLastD ' '])
                else none
            | _ => none
        | _ => none

/-- `format_commit_message` from `main.rs`: render `**scope**: message` when
the conventional-commit pattern matches, else return the raw line. -/
def format_commit_message (input : String) : String :=
  match matchCommitPattern input.data with
  | some (scope, msg) => "**" ++ String.mk scope ++ "**: " ++ String.mk msg
  | none => input

/-- One iteration of the first-pass classification loop in `main` (lines
529–552): appends the formatted message to every bucket whose marker the raw
line contains, joining the corresponding bump candidate each time. -/
def classifyStep (st : Changelog × Semver) (line : String) : Changelog × Semver :=
  let commit_message := format_commit_message line
  let (changelog, semver_target) := st
  let (changelog, semver_target) :=
    if strContains line "feat(" then
      ({ changelog with features := changelog.features ++ commit_message ++ "\n" },
        get_higher_semver semver_target .Minor)
    else (changelog, semver_target)
  let (changelog, semver_target) :=
    if strContains line "fix(" then
      ({ changelog with fixes := changelog.fixes ++ commit_message ++ "\n" },
        get_higher_semver semver_target .Patch)
    else (changelog, semver_target)
  let (changelog, semver_target) :=
    if strContains line "perf(" then
      ({ changelog with perf := changelog.perf ++ commit_message ++ "\n" },
        get_higher_semver semver_target .Patch)
    else (changelog, semver_target)
  let (changelog, semver_target) :=
    if strContains line "!feat(" || strContains line "!fix(" then
      ({ changelog with breaking := changelog.breaking ++ commit_message ++ "\n" },
        get_higher_semver semver_target .Major)
    else (changelog, semver_target)
  (changelog, semver_target)

/-- The whole first-pass classification of a log: fold `classifyStep` from
empty buckets and a `Patch` bump. -/
def classifyLog (lines : List String) : Changelog × Semver :=
  lines.foldl classifyStep (⟨"", "", "", ""⟩, .Patch)

/-- The scanning loop of `determine_semver_target` (lines 385–394): join
`Minor` on `feat(`, and return `Major` immediately on a breaking marker. -/
def dstLoop (acc : Semver) : List String → Semver
  | [] => acc
  | line :: rest =>
    let acc := if strContains line "feat(" then get_higher_semver acc .Minor else acc
    if strContains line "!feat(" || strContains line "!fix(" then .Major
    else dstLoop acc rest

/-! ## Extra-file version markers (`src/utils/file_utils.rs`) -/

/-- Try to match the regex `\d+\.\d+\.\d+(-[a-zA-Z0-9.]+)?` at the head of
`l` (leftmost-first, greedy; all adjacent classes are disjoint so greedy
scanning is exact, and the optional suffix group is taken when it matches). -/
def matchVersionAt (l : List Char) : Option (List Char) :=
  let d1 := l.takeWhile Char.isDigit
  if d1 = [] then none
  else
    match l.dropWhile Char.isDigit with
    | '.' :: r1 =>
      let d2 := r1.takeWhile Char.isDigit
      if d2 = [] then none
      else
        match r1.dropWhile Char.isDigit with
        | '.' :: r2 =>
          let d3 := r2.takeWhile Char.isDigit
          if d3 = [] then none
          else
            let core := d1 ++ '.' :: d2 ++ '.' :: d3
            match r2.dropWhile Char.isDigit with
            | '-' :: r3 =>
              let suf := r3.takeWhile (fun c => c.isAlphanum || c = '.')
              if suf = [] then some core else some (core ++ '-' :: suf)
            | _ => some core
        | _ => none
    | _ => none

/-- Rust `Regex::find`: the match starting at the leftmost possible
position. -/
def findVersion : List Char → Option (List Char)
  | [] => none
  | c :: cs =>
    match matchVersionAt (c :: cs) with
    | some m => some m
    | none => findVersion cs

/-- The per-line rewrite of `increase_extra_files_version`: on lines carrying
the marker comment, find the version substring before the marker and replace
every occurrence of it in the line with the new version. -/
def transformLine (new_version line : String) : String :=
  if strContains line "// x-releaser-version" then
    let part0 := (line.splitOn "// x-releaser-version").headD ""
    match findVersion part0.data with
    | some old_version => String.mk (replaceList old_version new_version.data line.data)
    | none => line
  else line

/-- The new contents of one extra file: rewrite each line and restore the
original trailing-newline state. -/
def extraFileNewContents (contents new_version : String) : String :=
  let new_contents := String.intercalate "\n" ((rustLines contents).map (transformLine new_version))
  if contents.endsWith "\n" then new_contents ++ "\n" else new_contents

/-! ## Orchestrator state (`main.rs`)

The external world (package metadata files, the tag list, `git diff` and
`git log` output, changelog and extra-file contents) is a record of total
functions — the abstract collaborators of the orchestrator.  Mutations are
recorded twice: as an effect trace (what was written) and as an update of the
corresponding field, since the second pass re-reads `package.json` files the
first pass may have rewritten. -/

structure Package where
  path : String
  extra_files : List String
  dependencies : List String
deriving DecidableEq, Repr

structure Repo where
  /-- `name` field of `<path>/package.json`. -/
  pkgName : String → String
  /-- `version` field of `<path>/package.json`. -/
  pkgVersion : String → String
  /-- output lines of `git tag -l` (the glob filtering is applied on top). -/
  tags : List String
  /-- raw stdout of `git diff --name-only <tag> HEAD -- <path>`. -/
  diff : String → String → String
  /-- lines of `git log <interval> --oneline -- <path>`. -/
  logScoped : String → String → List String
  /-- lines of `git log <interval> --oneline` (unscoped, used by
  `determine_semver_target`). -/
  logAll : String → List String
  /-- contents of `<path>/CHANGELOG.md`, when the file exists. -/
  changelogFile : String → Option String
  /-- contents of a declared extra file. -/
  extraFile : String → String

/-- The mutating operations the program performs.  Creating a git tag is
recorded as an effect but not fed back into `Repo.tags`: no claim's run reads
a tag created in the same run.  `gitCommit` stands for the final
`git add .` / `git commit` pair; the commit message is built from a `HashMap`
iteration whose order Rust leaves unspecified, so it is not modelled. -/
inductive Effect
  | writePackageJson (path version : String)
  | writeChangelog (path contents : String)
  | writeExtraFile (path contents : String)
  | createTag (tag : String)
  | writeTagsFile (tags : List String)
  | gitCommit
  | writePullRequestFile (contents : String)
deriving DecidableEq, Repr

/-- Association-list model of the `HashMap<String, String>` maps; claims only
depend on key membership and lookup, not iteration order. -/
def alContains (m : List (String × String)) (k : String) : Bool :=
  m.any (fun p => p.1 = k)

def alLookup (m : List (String × String)) (k : String) : Option String :=
  (m.find? (fun p => p.1 = k)).map (·.2)

def alInsert (m : List (String × String)) (k v : String) : List (String × String) :=
  if alContains m k then m.map (fun p => if p.1 = k then (k, v) else p) else m ++ [(k, v)]

/-- `has_dependency_changes` from `main.rs`. -/
def has_dependency_changes (package : Package) (changed_packages : List (String × String)) : Bool :=
  package.dependencies.any (fun dep => alContains changed_packages dep)

/-- Rust `Iterator::max_by`: folds left, keeping the later element on ties;
`none` models a panic inside the comparator. -/
def maxByM (cmp : String → String → Option Ordering) (l : List String) :
    Option (Option String) :=
  l.foldlM
    (fun acc x =>
      match acc with
      | none => some (some x)
      | some m =>
        match cmp m x with
        | none => none
        | some o => some (some (if o = .gt then m else x)))
    none

def strTrimStartMatches (s pat : String) : String :=
  String.mk (stripPrefixAll pat.data s.data)

/-- `get_latest_tag` from `main.rs`: filter the tags matching the glob
`<name>-v*`, drop `-beta` tags on production, and take the maximum under
`semver_compare` of the version suffixes; fall back to the synthetic
`<name>-v<version>` tag when none remain. -/
def get_latest_tag (repo : Repo) (name version environment : String) : Option String :=
  let tag_prefix := name ++ "-v"
  let tags := repo.tags.filter (fun t => tag_prefix.data.isPrefixOf t.data)
  let filtered := tags.filter
    (fun tag => if environment = "production" then !(strContains tag "-beta") else true)
  match maxByM
      (fun a b =>
        semver_compare (strTrimStartMatches a tag_prefix) (strTrimStartMatches b tag_prefix))
      filtered with
  | none => none
  | some none => some (name ++ "-v" ++ version)
  | some (some tag) => some tag

/-- `determine_semver_target` from `main.rs`. -/
def determine_semver_target (repo : Repo) (name version environment : String) :
    Option Semver :=
  match get_latest_tag repo name version environment with
  | none => none
  | some last_tag =>
    let interval := last_tag ++ "..HEAD"
    some (dstLoop .Patch (repo.logAll interval))

structure St where
  repo : Repo
  changed : List (String × String)
  nameToVersion : List (String × String)
  prContent : String
  tagsToCreate : List String
  effects : List Effect

def initSt (repo : Repo) : St :=
  { repo := repo, changed := [], nameToVersion := [], prContent := "",
    tagsToCreate := [], effects := [] }

/-- `update_package`: under dry-run only print; otherwise rewrite
`<path>/package.json` with the new version (recorded as an effect and as the
new on-disk version the second pass will read). -/
def applyUpdatePackage (st : St) (package_path new_version : String) (dry_run : Bool) : St :=
  if dry_run then st
  else
    { st with
      repo := { st.repo with
        pkgVersion := fun p => if p = package_path then new_version else st.repo.pkgVersion p }
      effects := st.effects ++ [.writePackageJson package_path new_version] }

/-- One file of `increase_extra_files_version`. -/
def applyExtraFile (new_version : String) (dry_run : Bool) (st : St) (extra_file : String) : St :=
  let contents := st.repo.extraFile extra_file
  let new_contents := extraFileNewContents contents new_version
  if dry_run then st
  else
    { st with
      repo := { st.repo with
        extraFile := fun p => if p = extra_file then new_contents else st.repo.extraFile p }
      effects := st.effects ++ [.writeExtraFile extra_file new_contents] }

/-- The body the first-pass `for package in &manifest.packages` loop runs for
one package (`main.rs` lines 440–604).  `none` models a panic. -/
def pass1Step (environment : String) (dry_run tag_mode : Bool) (st : St) (package : Package) :
    Option St := do
  let name := st.repo.pkgName package.path
  let version := st.repo.pkgVersion package.path
  let last_tag ← get_latest_tag st.repo name version environment
  if tag_mode then
    let tag := name ++ "-v" ++ version
    if !dry_run then
      -- `git tag -l <tag>`: non-empty output iff the tag exists.
      if st.repo.tags.contains tag then some st
      else
        some { st with
          tagsToCreate := st.tagsToCreate ++ [tag],
          effects := st.effects ++ [.createTag tag] }
    else some st
  else
    let git_diff_result := st.repo.diff last_tag package.path
    if git_diff_result = "" then some st
    else
      let interval := last_tag ++ "..HEAD"
      let git_log_result := st.repo.logScoped interval package.path
      let (changelog, semver_target) := classifyLog git_log_result
      let new_version ← increase_version version semver_target environment
      let changelog_body := get_new_changelog name new_version changelog
      -- `get_new_changelog` always returns `Ok`, so the `is_ok` branch runs.
      let current_changelog := st.repo.changelogFile package.path
      let updated_changelog := update_changelog current_changelog name changelog_body dry_run
      let st :=
        if !dry_run then
          { st with
            repo := { st.repo with
              changelogFile := fun p =>
                if p = package.path then some updated_changelog else st.repo.changelogFile p }
            effects := st.effects ++ [.writeChangelog package.path updated_changelog] }
        else st
      let filtered_changelog_body :=
        String.intercalate "\n"
          ((rustLines changelog_body).filter (fun line => !line.startsWith "#"))
      let st := { st with
        prContent := st.prContent ++ "## " ++ name ++ " - " ++ new_version ++ "\n"
          ++ filtered_changelog_body ++ "\n\n" }
      let st := applyUpdatePackage st package.path new_version dry_run
      let st := package.extra_files.foldl (applyExtraFile new_version dry_run) st
      some { st with
        changed := alInsert st.changed name new_version,
        nameToVersion := alInsert st.nameToVersion name new_version }

/-- The body of the second (dependency) pass (`main.rs` lines 607–633). -/
def pass2Step (environment : String) (dry_run : Bool) (st : St) (package : Package) :
    Option St := do
  let name := st.repo.pkgName package.path
  let version := st.repo.pkgVersion package.path
  let should_update := alContains st.changed name || has_dependency_changes package st.changed
  if should_update then
    let semver_target ←
      if alContains st.changed name then
        determine_semver_target st.repo name version environment
      else some Semver.Patch
    let new_version ← increase_version version semver_target environment
    let st := applyUpdatePackage st package.path new_version dry_run
    let st := package.extra_files.foldl (applyExtraFile new_version dry_run) st
    some { st with changed := alInsert st.changed name new_version }
  else some st

/-- The whole second pass over the manifest. -/
def pass2run (environment : String) (dry_run : Bool) (manifest : List Package) (st : St) :
    Option St :=
  manifest.foldlM (pass2Step environment dry_run) st

/-- The whole `main` after argument parsing: first pass, second pass, then
tag-file writing (tag mode) or commit plus pull-request file (otherwise). -/
def run (environment : String) (dry_run tag_mode : Bool) (manifest : List Package)
    (repo : Repo) : Option St := do
  let st ← manifest.foldlM (pass1Step environment dry_run tag_mode) (initSt repo)
  let st ← pass2run environment dry_run manifest st
  if tag_mode then
    -- the tags file is opened with create+truncate and written regardless of dry-run
    some { st with effects := st.effects ++ [.writeTagsFile st.tagsToCreate] }
  else
    let st := if !dry_run then { st with effects := st.effects ++ [.gitCommit] } else st
    let st :=
      if !dry_run then
        { st with effects := st.effects ++ [.writePullRequestFile st.prContent] }
      else st
    some st

/-- The versions successively written to `<path>/package.json` during a run. -/
def jsonWrites (effects : List Effect) (path : String) : List String :=
  effects.filterMap fun e =>
    match e with
    | .writePackageJson p v => if p = path then some v else none
    | _ => none

/-! ## Predicates used to state the claims -/

/-- The release part of `version` (before the first `-`) carries three
leading dot-separated numeric components. -/
def releaseOk (version : String) : Bool :=
  (parseRelease ((splitOnChar '-' version.data).headD [])).isSome

/-- The version carries a prerelease marker (at least one `-` separator). -/
def hasMarker (version : String) : Bool :=
  !((splitOnChar '-' version.data).tail.isEmpty)

/-- The prerelease counter that `increase_version` would extract parses (or
is absent, in which case it counts as 0). -/
def betaCounterOk (version : String) : Bool :=
  match (splitOnChar '-' version.data).get? 1 with
  | some sfx => (betaCounter sfx).isSome
  | none => true

/-- The dot-separated release components of a version string, the lists the
comparison loop of `semver_compare` indexes. -/
def relComps (s : String) : List (List Char) :=
  splitOnChar '.' ((splitOnChar '-' s.data).headD [])

/-- The prerelease suffix `semver_compare` consults: the fragment between the
first and second `-`. -/
def suffixPart (s : String) : Option (List Char) :=
  (splitOnChar '-' s.data).get? 1

/-- The counter the spec ascribes to a suffix: its trailing dot-separated
component parsed as an integer, 0 when that parse fails (missing counter). -/
def specTrailingCounter (suffix : List Char) : Nat :=
  (rustParseU32 ((splitOnChar '.' suffix).getLastD [])).getD 0

/-- Well-formed prerelease suffixes actually produced by the program:
`beta`, or `beta.` followed by an integer. -/
def betaShape (l : List Char) : Bool :=
  (l == "beta".data) || ("beta.".data.isPrefixOf l && (rustParseU32 (l.drop 5)).isSome)

/-- Either no suffix, or a suffix of the `beta` / `beta.N` shape. -/
def suffixOk (s : String) : Bool :=
  match suffixPart s with
  | none => true
  | some sfx => betaShape sfx

/-- The ordering the claim predicts from the two suffixes once the release
parts compare equal. -/
def claimVerdict (a b : String) : Ordering :=
  match suffixPart a, suffixPart b with
  | none, none => .eq
  | none, some _ => .gt
  | some _, none => .lt
  | some sa, some sb => compare (specTrailingCounter sa) (specTrailingCounter sb)

/-- One rendered sub-heading block of the changelog: present exactly when the
bucket is non-empty. -/
def sectionBlock (header contents : String) : String :=
  if contents ≠ "" then header ++ contents ++ "\n" else ""

/-- The bump-kind part of one first-pass loop iteration, with the bucket
bookkeeping projected away. -/
def semverStep (acc : Semver) (line : String) : Semver :=
  let acc := if strContains line "feat(" then get_higher_semver acc .Minor else acc
  let acc := if strContains line "fix(" then get_higher_semver acc .Patch else acc
  let acc := if strContains line "perf(" then get_higher_semver acc .Patch else acc
  if strContains line "!feat(" || strContains line "!fix(" then get_higher_semver acc .Major
  else acc

/-! ## Concrete repository states used as failing inputs and witnesses -/

/-- A repository with a single package at `a`, version `1.0.0`, no tags, a
non-empty diff and a single `feat` commit since the (synthetic) last tag. -/
def repoA : Repo :=
  { pkgName := fun _ => "pkg-a"
    pkgVersion := fun _ => "1.0.0"
    tags := []
    diff := fun _ _ => "M  a/src/lib.js"
    logScoped := fun _ _ => ["abc feat(x): y"]
    logAll := fun _ => []
    changelogFile := fun _ => none
    extraFile := fun _ => "" }

def pkgA : Package := { path := "a", extra_files := [], dependencies := [] }

/-- Three packages: only `a` has direct changes; `pb` depends on `pa`, and
`pc` depends on `pb` only. -/
def repo6 : Repo :=
  { pkgName := fun p => if p = "a" then "pa" else if p = "b" then "pb" else "pc"
    pkgVersion := fun _ => "1.0.0"
    tags := []
    diff := fun _ p => if p = "a" then "M  a/src/lib.js" else ""
    logScoped := fun _ _ => ["abc feat(x): y"]
    logAll := fun _ => []
    changelogFile := fun _ => none
    extraFile := fun _ => "" }

def pkgA6 : Package := { path := "a", extra_files := [], dependencies := [] }
def pkgB6 : Package := { path := "b", extra_files := [], dependencies := ["pa"] }
def pkgC6 : Package := { path := "c", extra_files := [], dependencies := ["pb"] }

/-- The state the dependency pass starts from after a first pass that bumped
only `pa`. -/
def st6 : St := { initSt repo6 with changed := [("pa", "1.1.0")] }

/-- An empty-world repository. -/
def trivRepo : Repo :=
  { pkgName := fun _ => ""
    pkgVersion := fun _ => ""
    tags := []
    diff := fun _ _ => ""
    logScoped := fun _ _ => []
    logAll := fun _ => []
    changelogFile := fun _ => none
    extraFile := fun _ => "" }

/-! ## Supporting lemmas: splitting and parsing -/

theorem splitOnCharAux_not_mem {c : Char} {l : List Char} (h : c ∉ l) :
    splitOnCharAux c l = (l, []) := by
  induction l with
  | nil => rfl
  | cons x xs ih =>
    have hx : x ≠ c := fun hxc => h (hxc ▸ List.mem_cons_self x xs)
    have hxs : c ∉ xs := fun hm => h (List.mem_cons_of_mem x hm)
    simp [splitOnCharAux, hx, ih hxs]

theorem splitOnChar_not_mem {c : Char} {l : List Char} (h : c ∉ l) :
    splitOnChar c l = [l] := by
  simp [splitOnChar, splitOnCharAux_not_mem h]

theorem rustParseU32_chars {t : List Char} {n : Nat} (h : rustParseU32 t = some n) :
    t ≠ [] ∧ ∀ x ∈ t, x = '+' ∨ x.isDigit = true := by
  unfold rustParseU32 at h
  cases t with
  | nil => simp at h
  | cons c cs =>
    by_cases hc : c = '+'
    · subst hc
      simp only [List.headD_cons, if_pos rfl, List.tail_cons] at h
      simp at h
      refine ⟨by simp, ?_⟩
      intro x hx
      rcases List.mem_cons.mp hx with hx | hx
      · exact Or.inl hx
      · exact Or.inr (h.1.2 x hx)
    · simp only [List.headD_cons, if_neg hc] at h
      simp at h
      refine ⟨by simp, ?_⟩
      intro x hx
      rcases List.mem_cons.mp hx with hx | hx
      · subst hx; exact Or.inr h.1.1
      · exact Or.inr (h.1.2 x hx)

theorem stripPrefixAllAux_no_match {pat s : List Char}
    (h : ¬ pat.isPrefixOf s = true) (fuel : Nat) :
    stripPrefixAllAux pat fuel s = s := by
  cases fuel with
  | zero => rfl
  | succ f => simp [stripPrefixAllAux, h]

theorem stripPrefixAll_append_no_match {pat t : List Char} (hne : pat ≠ [])
    (h : ¬ pat.isPrefixOf t = true) :
    stripPrefixAll pat (pat ++ t) = t := by
  obtain ⟨p, ps, rfl⟩ : ∃ p ps, pat = p :: ps := by
    cases pat with
    | nil => exact absurd rfl hne
    | cons p ps => exact ⟨p, ps, rfl⟩
  unfold stripPrefixAll
  have hlen : ((p :: ps) ++ t).length = (ps.length + t.length) + 1 := by
    simp [List.length_append]
  rw [hlen]
  have hpre : (p :: ps).isPrefixOf ((p :: ps) ++ t) = true :=
    List.isPrefixOf_iff_prefix.mpr (List.prefix_append _ _)
  simp only [stripPrefixAllAux, hpre, and_true, ne_eq, reduceCtorEq, not_false_eq_true,
    if_pos]
  rw [List.drop_left]
  exact stripPrefixAllAux_no_match h _

theorem split_beta_dot (t : List Char) :
    splitOnChar '.' ("beta.".data ++ t) = "beta".data :: splitOnChar '.' t := by
  show splitOnChar '.' ('b' :: 'e' :: 't' :: 'a' :: '.' :: t)
      = ['b', 'e', 't', 'a'] :: splitOnChar '.' t
  simp [splitOnChar, splitOnCharAux]

/-- On suffixes of the `beta` / `beta.N` shape, the counter computed by the
code (strip the literal prefix `beta.`, parse, default 0) agrees with the
trailing-component counter the spec describes. -/
theorem betaNum_eq_spec {l : List Char} (h : betaShape l = true) :
    betaNum l = specTrailingCounter l := by
  have h' : l = "beta".data
      ∨ ("beta.".data.isPrefixOf l = true ∧ (rustParseU32 (l.drop 5)).isSome = true) := by
    unfold betaShape at h
    simpa using h
  rcases h' with h1 | ⟨hpre, hsome⟩
  · subst h1; decide
  · obtain ⟨t, ht⟩ := List.isPrefixOf_iff_prefix.mp hpre
    obtain ⟨n, hn⟩ := Option.isSome_iff_exists.mp hsome
    have hdrop : l.drop 5 = t := by
      rw [← ht]
      have h5 : ("beta.".data).length = 5 := rfl
      rw [← h5, List.drop_left]
    rw [hdrop] at hn
    obtain ⟨htne, hmem⟩ := rustParseU32_chars hn
    have hdot : '.' ∉ t := by
      intro hm
      rcases hmem '.' hm with hx | hx
      · exact absurd hx (by decide)
      · exact absurd hx (by decide)
    have hb : ¬ ("beta.".data).isPrefixOf t = true := by
      intro hp
      obtain ⟨u, hu⟩ := List.isPrefixOf_iff_prefix.mp hp
      have hbt : 'b' ∈ t := by
        rw [← hu]
        show 'b' ∈ 'b' :: 'e' :: 't' :: 'a' :: '.' :: u
        simp
      rcases hmem 'b' hbt with hx | hx
      · exact absurd hx (by decide)
      · exact absurd hx (by decide)
    have hbne : ("beta.".data : List Char) ≠ [] := by decide
    rw [← ht]
    unfold betaNum specTrailingCounter
    rw [stripPrefixAll_append_no_match hbne hb, split_beta_dot,
      splitOnChar_not_mem hdot]
    simp [parseOr0, hn]

theorem natCompare_self (n : Nat) : compare n n = Ordering.eq := by
  simp [Nat.compare_eq_eq]

/-! ## Supporting lemmas: the replace / count-occurrences scan -/

theorem scanCond_nil (pat : List Char) :
    ¬ (pat ≠ [] ∧ pat.isPrefixOf ([] : List Char) = true) := by
  rintro ⟨h1, h2⟩
  cases pat with
  | nil => exact h1 rfl
  | cons p ps => simp [List.isPrefixOf] at h2

theorem countOccsAux_succ_pos {pat s : List Char}
    (hp : pat ≠ [] ∧ pat.isPrefixOf s = true) (f : Nat) :
    countOccsAux pat (f + 1) s = 1 + countOccsAux pat f (s.drop pat.length) := by
  simp only [countOccsAux]
  rw [if_pos hp]

theorem countOccsAux_succ_neg {pat : List Char} {c : Char} {cs : List Char}
    (hp : ¬ (pat ≠ [] ∧ pat.isPrefixOf (c :: cs) = true)) (f : Nat) :
    countOccsAux pat (f + 1) (c :: cs) = countOccsAux pat f cs := by
  simp only [countOccsAux]
  rw [if_neg hp]

theorem replaceListAux_nil (pat rep : List Char) (fuel : Nat) :
    replaceListAux pat rep fuel [] = [] := by
  cases fuel with
  | zero => rfl
  | succ f => simp only [replaceListAux, if_neg (scanCond_nil pat)]

theorem replaceListAux_succ_pos {pat s : List Char} (rep : List Char)
    (hp : pat ≠ [] ∧ pat.isPrefixOf s = true) (f : Nat) :
    replaceListAux pat rep (f + 1) s
      = rep ++ replaceListAux pat rep f (s.drop pat.length) := by
  simp only [replaceListAux]
  rw [if_pos hp]

theorem replaceListAux_succ_neg {pat : List Char} {c : Char} {cs : List Char}
    (rep : List Char) (hp : ¬ (pat ≠ [] ∧ pat.isPrefixOf (c :: cs) = true)) (f : Nat) :
    replaceListAux pat rep (f + 1) (c :: cs) = c :: replaceListAux pat rep f cs := by
  simp only [replaceListAux]
  rw [if_neg hp]

theorem replaceListAux_of_countOccs_zero (pat rep : List Char) :
    ∀ (fuel : Nat) (s : List Char), s.length ≤ fuel → countOccsAux pat fuel s = 0 →
      replaceListAux pat rep fuel s = s := by
  intro fuel
  induction fuel with
  | zero =>
    intro s hlen _
    have hs : s = [] := List.length_eq_zero.mp (Nat.le_zero.mp hlen)
    subst hs; rfl
  | succ f ih =>
    intro s hlen hcnt
    by_cases hp : pat ≠ [] ∧ pat.isPrefixOf s = true
    · rw [countOccsAux_succ_pos hp] at hcnt
      omega
    · cases s with
      | nil => exact replaceListAux_nil pat rep _
      | cons c cs =>
        rw [countOccsAux_succ_neg hp] at hcnt
        rw [replaceListAux_succ_neg rep hp, ih cs (by simpa using hlen) hcnt]

/-- A scan that meets at most one occurrence of the pattern removes exactly
the first occurrence. -/
theorem replaceListAux_eq_removeFirstOcc (pat : List Char) :
    ∀ (fuel : Nat) (s : List Char), s.length ≤ fuel → countOccsAux pat fuel s ≤ 1 →
      replaceListAux pat [] fuel s = removeFirstOcc pat s := by
  intro fuel
  induction fuel with
  | zero =>
    intro s hlen _
    have hs : s = [] := List.length_eq_zero.mp (Nat.le_zero.mp hlen)
    subst hs; rfl
  | succ f ih =>
    intro s hlen hcnt
    by_cases hp : pat ≠ [] ∧ pat.isPrefixOf s = true
    · rw [countOccsAux_succ_pos hp] at hcnt
      have hcnt' : countOccsAux pat f (s.drop pat.length) = 0 := by omega
      have hplen : 1 ≤ pat.length := List.length_pos.mpr hp.1
      have hdlen : (s.drop pat.length).length ≤ f := by
        simp only [List.length_drop]
        omega
      rw [replaceListAux_succ_pos [] hp,
        replaceListAux_of_countOccs_zero pat [] f _ hdlen hcnt', List.nil_append]
      cases s with
      | nil => exact absurd hp (scanCond_nil pat)
      | cons c cs => rw [removeFirstOcc, if_pos hp]
    · cases s with
      | nil => exact replaceListAux_nil pat [] _
      | cons c cs =>
        rw [countOccsAux_succ_neg hp] at hcnt
        rw [replaceListAux_succ_neg [] hp, removeFirstOcc, if_neg hp,
          ih cs (by simpa using hlen) hcnt]

/-! ## Supporting lemmas: bump-kind join and the classification loops -/

theorem higher_patch (sv : Semver) : get_higher_semver sv .Patch = sv := by
  cases sv <;> rfl

theorem higher_major (sv : Semver) : get_higher_semver sv .Major = .Major := by
  cases sv <;> rfl

theorem higher_major_left (sv : Semver) : get_higher_semver .Major sv = .Major := by
  cases sv <;> rfl

theorem classifyStep_snd (st : Changelog × Semver) (line : String) :
    (classifyStep st line).2 = semverStep st.2 line := by
  obtain ⟨cl, sv⟩ := st
  simp only [classifyStep, semverStep]
  cases strContains line "feat(" <;> cases strContains line "fix(" <;>
    cases strContains line "perf(" <;>
    cases (strContains line "!feat(" || strContains line "!fix(") <;> simp

theorem dstLoop_major (lines : List String) : dstLoop .Major lines = .Major := by
  induction lines with
  | nil => rfl
  | cons l ls ih => simp [dstLoop, higher_major_left, ih]

theorem foldl_semverStep_eq_dstLoop (lines : List String) (acc : Semver) :
    lines.foldl semverStep acc = dstLoop acc lines := by
  induction lines generalizing acc with
  | nil => rfl
  | cons l ls ih =>
    simp only [List.foldl_cons, dstLoop]
    rw [ih]
    by_cases hb : (strContains l "!feat(" || strContains l "!fix(") = true
    · have hstep : semverStep acc l = .Major := by
        simp only [semverStep, hb, if_true, higher_major]
      rw [hstep, hb, dstLoop_major]
      simp
    · have hb' : (strContains l "!feat(" || strContains l "!fix(") = false :=
        Bool.eq_false_iff.mpr hb
      have hstep : semverStep acc l =
          if strContains l "feat(" then get_higher_semver acc .Minor else acc := by
        simp only [semverStep, hb', if_false, higher_patch]
        simp
      rw [hstep, hb']
      simp

/-! ## Supporting lemmas: the orchestrator passes -/

theorem pass1Step_dry_tag {environment : String} {st st' : St} {package : Package}
    (h : pass1Step environment true true st package = some st') : st' = st := by
  simp only [pass1Step] at h
  cases hlt : get_latest_tag st.repo (st.repo.pkgName package.path)
      (st.repo.pkgVersion package.path) environment with
  | none => rw [hlt] at h; simp at h
  | some tag =>
    rw [hlt] at h
    simp only [Option.bind_eq_bind, Option.bind, Bool.not_true, if_pos rfl] at h
    simp at h
    exact h.symm

theorem pass1_dry_tag (environment : String) (manifest : List Package) (st st' : St)
    (h : manifest.foldlM (pass1Step environment true true) st = some st') : st' = st := by
  induction manifest generalizing st with
  | nil => simpa using h.symm
  | cons p ps ih =>
    rw [List.foldlM_cons] at h
    cases hstep : pass1Step environment true true st p with
    | none => rw [hstep] at h; simp at h
    | some st1 =>
      rw [hstep] at h
      simp only [Option.bind_eq_bind, Option.bind] at h
      rw [ih st1 h, pass1Step_dry_tag hstep]

theorem pass2Step_empty_changed {environment : String} {dry_run : Bool} {st : St}
    {package : Package} (hch : st.changed = []) :
    pass2Step environment dry_run st package = some st := by
  simp only [pass2Step]
  have h1 : alContains st.changed (st.repo.pkgName package.path) = false := by
    rw [hch]; rfl
  have h2 : has_dependency_changes package st.changed = false := by
    rw [hch]
    unfold has_dependency_changes alContains
    simp
  simp [h1, h2]

theorem pass2run_empty_changed (environment : String) (dry_run : Bool)
    (manifest : List Package) (st : St) (hch : st.changed = []) :
    pass2run environment dry_run manifest st = some st := by
  induction manifest with
  | nil => rfl
  | cons p ps ih =>
    unfold pass2run at *
    rw [List.foldlM_cons, pass2Step_empty_changed hch]
    simpa [Option.bind_eq_bind, Option.bind] using ih

theorem alContains_alInsert {m : List (String × String)} {k v k' : String}
    (h : alContains (alInsert m k v) k' = true) :
    alContains m k' = true ∨ k' = k := by
  unfold alInsert at h
  split at h
  · unfold alContains at h ⊢
    rw [List.any_eq_true] at h
    obtain ⟨x, hx, hxk⟩ := h
    obtain ⟨p, hp, hfp⟩ := List.mem_map.mp hx
    by_cases hpk : p.1 = k
    · right
      rw [if_pos hpk] at hfp
      rw [← hfp] at hxk
      simp at hxk
      exact hxk.symm
    · left
      rw [if_neg hpk] at hfp
      rw [List.any_eq_true]
      exact ⟨p, hp, hfp ▸ hxk⟩
  · unfold alContains at h ⊢
    rw [List.any_append] at h
    rcases Bool.or_eq_true_iff.mp h with h | h
    · exact Or.inl h
    · right
      simp at h
      exact h.symm

theorem applyUpdatePackage_frame (st : St) (p v : String) (d : Bool) :
    (applyUpdatePackage st p v d).repo.pkgName = st.repo.pkgName
    ∧ (applyUpdatePackage st p v d).changed = st.changed := by
  unfold applyUpdatePackage
  split <;> simp

theorem applyExtraFile_fold_frame (v : String) (d : Bool) (files : List String) (st : St) :
    ((files.foldl (applyExtraFile v d) st).repo.pkgName = st.repo.pkgName)
    ∧ (files.foldl (applyExtraFile v d) st).changed = st.changed := by
  induction files generalizing st with
  | nil => exact ⟨rfl, rfl⟩
  | cons f fs ih =>
    rw [List.foldl_cons]
    have hstep : ((applyExtraFile v d st f).repo.pkgName = st.repo.pkgName)
        ∧ (applyExtraFile v d st f).changed = st.changed := by
      unfold applyExtraFile
      split <;> simp
    obtain ⟨ha, hb⟩ := ih (applyExtraFile v d st f)
    exact ⟨ha.trans hstep.1, hb.trans hstep.2⟩

/-- A successful second-pass step keeps the package-name view of the
repository and can add at most the processed package's own name to
`changedPackages`. -/
theorem pass2Step_spec {environment : String} {dry_run : Bool} {st st' : St}
    {package : Package} (h : pass2Step environment dry_run st package = some st') :
    st'.repo.pkgName = st.repo.pkgName
    ∧ ∀ k, alContains st'.changed k = true →
        alContains st.changed k = true ∨ k = st.repo.pkgName package.path := by
  have hfold : ∀ nv : String,
      ((package.extra_files.foldl (applyExtraFile nv dry_run)
          (applyUpdatePackage st package.path nv dry_run)).repo.pkgName = st.repo.pkgName)
      ∧ (package.extra_files.foldl (applyExtraFile nv dry_run)
          (applyUpdatePackage st package.path nv dry_run)).changed = st.changed := by
    intro nv
    obtain ⟨f1, f2⟩ := applyExtraFile_fold_frame nv dry_run package.extra_files
      (applyUpdatePackage st package.path nv dry_run)
    obtain ⟨g1, g2⟩ := applyUpdatePackage_frame st package.path nv dry_run
    exact ⟨f1.trans g1, f2.trans g2⟩
  simp only [pass2Step] at h
  by_cases hs : (alContains st.changed (st.repo.pkgName package.path)
      || has_dependency_changes package st.changed) = true
  · rw [if_pos hs] at h
    by_cases hm : alContains st.changed (st.repo.pkgName package.path) = true
    · rw [if_pos hm] at h
      cases ht : determine_semver_target st.repo (st.repo.pkgName package.path)
          (st.repo.pkgVersion package.path) environment with
      | none => rw [ht] at h; simp at h
      | some sv =>
        rw [ht] at h
        simp only [Option.bind_eq_bind, Option.bind] at h
        cases hv : increase_version (st.repo.pkgVersion package.path) sv environment with
        | none => rw [hv] at h; simp at h
        | some nv =>
          rw [hv] at h
          simp only [Option.some.injEq] at h
          subst h
          refine ⟨(hfold nv).1, ?_⟩
          intro k hk
          simp only at hk
          rw [(hfold nv).2] at hk
          exact alContains_alInsert hk
    · rw [if_neg hm] at h
      simp only [Option.bind_eq_bind, Option.bind] at h
      cases hv : increase_version (st.repo.pkgVersion package.path) Semver.Patch
          environment with
      | none => rw [hv] at h; simp at h
      | some nv =>
        rw [hv] at h
        simp only [Option.some.injEq] at h
        subst h
        refine ⟨(hfold nv).1, ?_⟩
        intro k hk
        simp only at hk
        rw [(hfold nv).2] at hk
        exact alContains_alInsert hk
  · rw [if_neg hs] at h
    simp only [Option.some.injEq] at h
    subst h
    exact ⟨rfl, fun k hk => Or.inl hk⟩

theorem pass2Step_not_marked {environment : String} {dry_run : Bool} {st : St}
    {package : Package}
    (h1 : alContains st.changed (st.repo.pkgName package.path) = false)
    (h2 : has_dependency_changes package st.changed = false) :
    pass2Step environment dry_run st package = some st := by
  simp only [pass2Step]
  simp [h1, h2]

/-- A name absent from `changedPackages` and different from all names in the
remaining manifest stays absent through the rest of the second pass. -/
theorem pass2run_absent (environment : String) (dry_run : Bool) (l : List Package)
    (st : St) (name : String)
    (hn : alContains st.changed name = false)
    (hl : ∀ Q ∈ l, st.repo.pkgName Q.path ≠ name) :
    (pass2run environment dry_run l st).elim True
      (fun st1 => alContains st1.changed name = false) := by
  induction l generalizing st with
  | nil => simpa [pass2run] using hn
  | cons Q rest ih =>
    unfold pass2run at *
    rw [List.foldlM_cons]
    cases hstep : pass2Step environment dry_run st Q with
    | none => exact trivial
    | some st1 =>
      simp only [Option.bind_eq_bind, Option.bind]
      obtain ⟨hpn, hkeys⟩ := pass2Step_spec hstep
      have hn1 : alContains st1.changed name = false := by
        by_contra hc
        rcases hkeys name (Bool.not_eq_false _ |>.mp hc) with h | h
        · rw [h] at hn
          exact Bool.true_eq_false |>.mp hn
        · exact (hl Q (List.mem_cons_self _ _)) h.symm
      have hl1 : ∀ R ∈ rest, st1.repo.pkgName R.path ≠ name := by
        intro R hR
        rw [hpn]
        exact hl R (List.mem_cons_of_mem _ hR)
      exact ih st1 hn1 hl1

/-! ## The claims -/

/-- C1: on the production channel, a version that carries a prerelease marker
and whose release part has three numeric dot-separated components is promoted
to exactly `major.minor.patch` with the marker stripped — the requested bump
kind does not influence the result. -/
theorem C1_production_promotion (version : String) (bump : Semver)
    (raw : List Char) (rest : List (List Char)) (major minor patch : Nat)
    (h1 : splitOnChar '-' version.data = raw :: rest) (h2 : rest ≠ [])
    (h3 : parseRelease raw = some (major, minor, patch)) :
    increase_version version bump "production" = some (verStr major minor patch) := by
  have hr : rest.isEmpty = false := by
    cases rest with
    | nil => exact absurd rfl h2
    | cons a l => rfl
  simp only [increase_version, h1, h3, hr]
  simp

/-- C1 witness: `Increase("1.2.3-beta", Major, "production") = "1.2.3"`. -/
theorem C1_witness :
    splitOnChar '-' "1.2.3-beta".data = "1.2.3".data :: ["beta".data]
    ∧ parseRelease "1.2.3".data = some (1, 2, 3)
    ∧ increase_version "1.2.3-beta" .Major "production" = some (verStr 1 2 3) :=
  ⟨by decide, by decide,
    C1_production_promotion "1.2.3-beta" .Major "1.2.3".data ["beta".data] 1 2 3
      (by decide) (by decide) (by decide)⟩

/-- C2 counterexample: the code increments the existing prerelease counter, so
`Increase("1.2.3-beta.1", Minor, "staging")` is `"1.3.0-beta.2"`, not the
`"1.3.0-beta.1"` the claim states. -/
theorem C2_counterexample :
    increase_version "1.2.3-beta.1" .Minor "staging" = some "1.3.0-beta.2"
    ∧ ("1.3.0-beta.2" : String) ≠ "1.3.0-beta.1" := by decide

/-- C2 amended: `Increase("1.2.3-beta.1", Minor, "staging") = "1.3.0-beta.2"`
(the numeric counter is incremented by one), and
`Increase("1.2.3", Minor, "staging") = "1.3.0-beta"` (bare marker) as
claimed. -/
theorem C2_staging_bumps :
    increase_version "1.2.3-beta.1" .Minor "staging" = some "1.3.0-beta.2"
    ∧ increase_version "1.2.3" .Minor "staging" = some "1.3.0-beta" := by decide

/-- C3 counterexample: with an existing body containing the title line twice,
the merge removes both occurrences (Rust `str::replace` removes every
occurrence), so the result differs from removing only the first. -/
theorem C3_counterexample :
    update_changelog (some "# pkg\nA\n# pkg\nB\n") "pkg" "R\n" false = "R\n" ++ "A\nB\n"
    ∧ "R\n" ++ "A\nB\n"
        ≠ "R\n" ++ String.mk (removeFirstOcc ("# pkg\n").data
            ("# pkg\nA\n# pkg\nB\n").data) := by
  decide

/-- C3 amended: `Merge(None, name, rendered)` is `rendered` unchanged, and
when the title line `# <name>\n` occurs at most once in the existing body,
`Merge(Some existing, name, rendered)` is `rendered` followed by the existing
body with that first occurrence removed.  (When the line occurs more than
once, every occurrence is removed, as the counterexample shows.) -/
theorem C3_merge_single_title (name rendered existing : String)
    (h : countOccs ("# " ++ name ++ "\n").data existing.data ≤ 1) :
    update_changelog none name rendered false = rendered
    ∧ update_changelog (some existing) name rendered false
        = rendered ++ String.mk (removeFirstOcc ("# " ++ name ++ "\n").data
            existing.data) := by
  refine ⟨rfl, ?_⟩
  show rendered ++ strReplace existing ("# " ++ name ++ "\n") "" = _
  unfold strReplace replaceList
  congr 1
  congr 1
  exact replaceListAux_eq_removeFirstOcc _ _ _ (Nat.le_refl _) h

/-- C3 witness: the amended merge behaviour at a one-title body. -/
theorem C3_witness :
    countOccs ("# " ++ "pkg" ++ "\n").data ("# pkg\nOld\n" : String).data ≤ 1
    ∧ (update_changelog none "pkg" "R\n" false = "R\n"
      ∧ update_changelog (some "# pkg\nOld\n") "pkg" "R\n" false
          = "R\n" ++ String.mk (removeFirstOcc ("# " ++ "pkg" ++ "\n").data
              ("# pkg\nOld\n" : String).data)) :=
  ⟨by decide, C3_merge_single_title "pkg" "R\n" "# pkg\nOld\n" (by decide)⟩

set_option maxRecDepth 40000 in
/-- C4: on a repository with a single directly-changed package, the second
pass re-reads the version written by the first pass, applies `Increase` to it
a second time, and rewrites the metadata file again: the file receives two
writes (`1.1.0` then `1.1.1`), the on-disk version ends at `1.1.1`, while the
first pass recorded `1.1.0` — the claim that a recorded package keeps its
first-pass version is violated by the code. -/
theorem C4_second_pass_rebumps :
    (run "production" false false [pkgA] repoA).map (fun st => jsonWrites st.effects "a")
        = some ["1.1.0", "1.1.1"]
    ∧ (run "production" false false [pkgA] repoA).map (fun st => st.repo.pkgVersion "a")
        = some "1.1.1"
    ∧ (run "production" false false [pkgA] repoA).map
        (fun st => alLookup st.nameToVersion "pkg-a")
        = some (some "1.1.0") := by decide

/-- C5: in tag mode the run always ends by creating/truncating the tags
output file, dry-run or not; under `--dry-run --tag` the whole effect trace
is exactly that one file write (an empty tag list), so the dry-run contract
of performing no mutating filesystem operation is violated by the code.  The
second conjunct pins the concrete failing input of an empty manifest. -/
theorem C5_dry_run_tag_mode_truncates_tags_file :
    (∀ (environment : String) (manifest : List Package) (repo : Repo),
        (run environment true true manifest repo).elim True
          (fun st => st.effects = [Effect.writeTagsFile []]))
    ∧ run "production" true true [] trivRepo
        = some { initSt trivRepo with effects := [Effect.writeTagsFile []] } := by
  constructor
  · intro environment manifest repo
    cases hr : run environment true true manifest repo with
    | none => exact trivial
    | some st =>
      simp only [Option.elim_some]
      unfold run at hr
      cases h1 : manifest.foldlM (pass1Step environment true true) (initSt repo) with
      | none =>
        rw [h1] at hr
        simp only [Option.bind_eq_bind, Option.bind] at hr
        simp at hr
      | some st1 =>
        rw [h1] at hr
        have e1 : st1 = initSt repo := pass1_dry_tag _ _ _ _ h1
        subst e1
        simp only [Option.bind_eq_bind, Option.bind,
          pass2run_empty_changed environment true manifest (initSt repo) rfl] at hr
        simp only [if_pos trivial, Option.some.injEq, initSt] at hr
        rw [← hr]
        rfl
  · rfl

set_option maxRecDepth 40000 in
/-- C6 counterexample: with `pa` changed in the first pass, `pb` depending on
`pa` and `pc` depending only on `pb`, the second pass in manifest order
`[pb, pc]` marks `pc` for an update: `pb` enters `changedPackages` mid-pass
and `pc`, coming later, sees it — propagation is not single-hop for packages
after the newly inserted one. -/
theorem C6_counterexample :
    alContains st6.changed "pb" = false
    ∧ (pass2run "production" false [pkgB6, pkgC6] st6).map
        (fun st => (alContains st.changed "pc", jsonWrites st.effects "c"))
      = some (true, ["1.0.1"]) := by decide

/-- C6 amended: the single-hop guarantee holds only for packages the pass
reaches before the propagation-bumped package is inserted: a package `P` that
is not in `changedPackages`, none of whose dependencies is in
`changedPackages`, and none of whose dependencies is the name of a package
preceding `P` in the manifest, is not marked during the second pass (its name
never enters `changedPackages`), provided no other manifest entry shares its
name. -/
theorem C6_single_hop (environment : String) (dry_run : Bool)
    (pre post : List Package) (P : Package) (st0 : St)
    (hP : alContains st0.changed (st0.repo.pkgName P.path) = false)
    (hdeps : ∀ d ∈ P.dependencies, alContains st0.changed d = false)
    (hpre : ∀ Q ∈ pre, st0.repo.pkgName Q.path ∉ P.dependencies)
    (hnames : ∀ Q ∈ pre ++ post, st0.repo.pkgName Q.path ≠ st0.repo.pkgName P.path) :
    (pass2run environment dry_run (pre ++ P :: post) st0).elim True
      (fun st1 => alContains st1.changed (st0.repo.pkgName P.path) = false) := by
  induction pre generalizing st0 with
  | nil =>
    simp only [List.nil_append]
    unfold pass2run
    rw [List.foldlM_cons]
    have hdep0 : has_dependency_changes P st0.changed = false := by
      unfold has_dependency_changes
      rw [List.any_eq_false]
      intro d hd
      simp [hdeps d hd]
    rw [pass2Step_not_marked hP hdep0]
    simp only [Option.bind_eq_bind, Option.bind]
    exact pass2run_absent environment dry_run post st0 _ hP
      (fun Q hQ => hnames Q (by simpa using hQ))
  | cons Q pre' ih =>
    simp only [List.cons_append]
    unfold pass2run
    rw [List.foldlM_cons]
    cases hstep : pass2Step environment dry_run st0 Q with
    | none => exact trivial
    | some st1 =>
      simp only [Option.bind_eq_bind, Option.bind]
      obtain ⟨hpn, hkeys⟩ := pass2Step_spec hstep
      have hQP : st0.repo.pkgName Q.path ≠ st0.repo.pkgName P.path :=
        hnames Q (by simp)
      have hP1 : alContains st1.changed (st1.repo.pkgName P.path) = false := by
        rw [hpn]
        by_contra hc
        rcases hkeys _ (Bool.not_eq_false _ |>.mp hc) with h | h
        · rw [h] at hP
          exact Bool.true_eq_false |>.mp hP
        · exact hQP h.symm
      have hdeps1 : ∀ d ∈ P.dependencies, alContains st1.changed d = false := by
        intro d hd
        by_contra hc
        rcases hkeys d (Bool.not_eq_false _ |>.mp hc) with h | h
        · rw [hdeps d hd] at h
          exact Bool.false_ne_true h
        · exact (hpre Q (List.mem_cons_self _ _)) (h ▸ hd)
      have hpre1 : ∀ R ∈ pre', st1.repo.pkgName R.path ∉ P.dependencies := by
        intro R hR
        rw [hpn]
        exact hpre R (List.mem_cons_of_mem _ hR)
      have hnames1 : ∀ R ∈ pre' ++ post,
          st1.repo.pkgName R.path ≠ st1.repo.pkgName P.path := by
        intro R hR
        rw [hpn]
        exact hnames R (by
          rcases List.mem_append.mp hR with h | h
          · exact List.mem_append.mpr (Or.inl (List.mem_cons_of_mem _ h))
          · exact List.mem_append.mpr (Or.inr h))
      have hih := ih st1 hP1 hdeps1 hpre1 hnames1
      rw [hpn] at hih
      exact hih

set_option maxRecDepth 40000 in
/-- C6 witness: in manifest order `[pc, pb]` the package `pc` (depending only
on `pb`, which is absent from `changedPackages` at the start of the pass) is
not marked. -/
theorem C6_witness :
    (pass2run "production" false ([] ++ pkgC6 :: [pkgB6]) st6).elim True
      (fun st1 => alContains st1.changed (st6.repo.pkgName pkgC6.path) = false) :=
  C6_single_hop "production" false [] [pkgB6] pkgC6 st6
    (by decide) (by decide) (by decide) (by decide)

/-- C7 counterexample: `"1.2.3-x.y"` has a fully numeric three-component
release part, yet `Increase` on the staging channel fails on it (the
prerelease counter `y` does not parse), so failure is not equivalent to the
release part lacking three numeric components. -/
theorem C7_counterexample :
    increase_version "1.2.3-x.y" .Patch "staging" = none
    ∧ releaseOk "1.2.3-x.y" = true := by decide

/-- C7 amended: `Increase(version, bump, channel)` fails exactly when the
release part lacks three leading numeric dot-separated components, or when
the channel is not production and the version carries a prerelease marker
whose counter fragment fails to parse. -/
theorem C7_failure_iff (version : String) (semver : Semver) (environment : String) :
    increase_version version semver environment = none ↔
      releaseOk version = false
        ∨ (environment ≠ "production" ∧ hasMarker version = true
            ∧ betaCounterOk version = false) := by
  unfold increase_version releaseOk hasMarker betaCounterOk
  cases hs : splitOnChar '-' version.data with
  | nil => exact absurd hs (by simp [splitOnChar])
  | cons raw rest =>
    simp only [hs, List.headD_cons, List.tail_cons]
    cases hp : parseRelease raw with
    | none => simp [hp]
    | some trip =>
      obtain ⟨ma, mi, pa⟩ := trip
      by_cases he : environment = "production"
      · subst he
        cases rest <;> simp [hp]
      · cases rest with
        | nil => simp [hp, he]
        | cons sfx rest' =>
          cases hb : betaCounter sfx with
          | none => simp [hp, he, hb]
          | some bv => simp [hp, he, hb]

/-- C8 counterexample: at equal release parts, the suffix `alpha.3` carries
trailing counter 3 and `beta.1` carries 1, so the claim predicts `Greater`;
the code strips only the literal prefix `beta.`, parses `alpha.3` as 0, and
returns `Less`. -/
theorem C8_counterexample :
    semver_compare "1.0.0-alpha.3" "1.0.0-beta.1" = some Ordering.lt
    ∧ suffixPart "1.0.0-alpha.3" = some "alpha.3".data
    ∧ suffixPart "1.0.0-beta.1" = some "beta.1".data
    ∧ specTrailingCounter "alpha.3".data = 3
    ∧ specTrailingCounter "beta.1".data = 1
    ∧ claimVerdict "1.0.0-alpha.3" "1.0.0-beta.1" = Ordering.gt
    ∧ Ordering.lt ≠ Ordering.gt := by decide

/-- C8 amended: for version strings whose three release components compare
equal as integers and whose prerelease suffixes (when present) have the
`beta` / `beta.N` shape the program produces, `Compare` returns Greater when
only `b` has a suffix, Less when only `a` has one, Equal when neither has
one, and otherwise compares the trailing numeric counters (missing counter
= 0). -/
theorem C8_suffix_ordering (a b : String) (a0 a1 a2 b0 b1 b2 : List Char)
    (ha0 : (relComps a).get? 0 = some a0) (ha1 : (relComps a).get? 1 = some a1)
    (ha2 : (relComps a).get? 2 = some a2)
    (hb0 : (relComps b).get? 0 = some b0) (hb1 : (relComps b).get? 1 = some b1)
    (hb2 : (relComps b).get? 2 = some b2)
    (e0 : parseOr0 a0 = parseOr0 b0) (e1 : parseOr0 a1 = parseOr0 b1)
    (e2 : parseOr0 a2 = parseOr0 b2)
    (hsa : suffixOk a = true) (hsb : suffixOk b = true) :
    semver_compare a b = some (claimVerdict a b) := by
  unfold relComps at ha0 ha1 ha2 hb0 hb1 hb2
  unfold suffixOk suffixPart at hsa hsb
  unfold semver_compare claimVerdict suffixPart
  simp only [ha0, ha1, ha2, hb0, hb1, hb2, e0, e1, e2, natCompare_self]
  simp only [ne_eq, not_true_eq_false, if_false, reduceIte]
  cases hA : (splitOnChar '-' a.data).get? 1 with
  | none =>
    cases hB : (splitOnChar '-' b.data).get? 1 with
    | none => simp [betaCompare]
    | some sb => simp [betaCompare]
  | some sa =>
    cases hB : (splitOnChar '-' b.data).get? 1 with
    | none => simp [betaCompare]
    | some sb =>
      rw [hA] at hsa
      rw [hB] at hsb
      simp only [betaCompare]
      rw [betaNum_eq_spec hsa, betaNum_eq_spec hsb]

/-- C8 witness: `Compare("1.0.0", "1.0.0-beta.2") = Greater`, as the amended
claim predicts for a release against its prerelease. -/
theorem C8_witness :
    (relComps "1.0.0").get? 0 = some "1".data
    ∧ suffixOk "1.0.0" = true ∧ suffixOk "1.0.0-beta.2" = true
    ∧ semver_compare "1.0.0" "1.0.0-beta.2" = some (claimVerdict "1.0.0" "1.0.0-beta.2")
    ∧ claimVerdict "1.0.0" "1.0.0-beta.2" = Ordering.gt :=
  ⟨by decide, by decide, by decide,
    C8_suffix_ordering "1.0.0" "1.0.0-beta.2" "1".data "0".data "0".data
      "1".data "0".data "0".data
      (by decide) (by decide) (by decide) (by decide) (by decide) (by decide)
      (by decide) (by decide) (by decide) (by decide) (by decide),
    by decide⟩

/-- C9: the rendered changelog fragment is the package title line, the
version heading line, then one sub-heading block per non-empty bucket in the
fixed order Features, Fixes, Performance; the breaking bucket contributes
nothing to the output even when non-empty. -/
theorem C9_render_shape (name new_version : String) (changelog : Changelog) :
    get_new_changelog name new_version changelog
        = "# " ++ name ++ "\n" ++ "## Version " ++ new_version ++ "\n"
          ++ sectionBlock "### Features\n" changelog.features
          ++ sectionBlock "### Fixes\n" changelog.fixes
          ++ sectionBlock "### Performance\n" changelog.perf
    ∧ ∀ b : String,
        get_new_changelog name new_version { changelog with breaking := b }
          = get_new_changelog name new_version changelog := by
  constructor
  · unfold get_new_changelog sectionBlock
    by_cases h1 : changelog.features = "" <;> by_cases h2 : changelog.fixes = "" <;>
      by_cases h3 : changelog.perf = "" <;>
      simp [h1, h2, h3, String.ext_iff, String.data_append, List.append_assoc]
  · intro b
    rfl

/-- C10: the first-pass per-line classification loop and
`determine_semver_target`'s scan compute the same bump kind on every sequence
of commit lines. -/
theorem C10_bump_equivalence (lines : List String) :
    (classifyLog lines).2 = dstLoop .Patch lines := by
  have h : ∀ (st : Changelog × Semver),
      (lines.foldl classifyStep st).2 = lines.foldl semverStep st.2 := by
    induction lines with
    | nil => intro st; rfl
    | cons l ls ih =>
      intro st
      simp only [List.foldl_cons]
      rw [ih, classifyStep_snd]
  rw [classifyLog, h, foldl_semverStep_eq_dstLoop]

end Releaser
